import Mathlib

/-!
Shallow embedding of `src/src/lib.rs`: a pyo3 `Scanner` that maps
(line, column) positions to byte offsets and detects redundant
parentheses around syntax nodes.

The source text is modelled as a list of byte values (`List Nat`); Rust
`usize`/`i32` arithmetic is modelled as `Nat`/`Int` with explicit
wraparound where the machine width can matter.  An indexing operation
that can panic in Rust (slice index out of bounds) is modelled by
returning `none`.
-/

set_option autoImplicit false

/-- Rust `(b as char).is_whitespace()` restricted to byte values `0..=255`:
the White_Space code points below `U+0100` are tab, LF, VT, FF, CR, space,
`U+0085` (NEL) and `U+00A0` (NBSP). -/
def isWs (b : Nat) : Bool :=
  b == 9 || b == 10 || b == 11 || b == 12 || b == 13 || b == 32 || b == 133 || b == 160

/-- Rust `n as i32` applied to a `usize` `n` (truncating cast, release
semantics): reduce modulo `2^32` and reinterpret as a signed value. -/
def i32ofUsize (n : Nat) : Int :=
  if n % 4294967296 < 2147483648 then ((n % 4294967296 : Nat) : Int)
  else ((n % 4294967296 : Nat) : Int) - 4294967296

/-- Rust `v - 1` on `i32` (release semantics: wraps at the minimum value). -/
def i32sub1 (v : Int) : Int :=
  if v = -2147483648 then 2147483647 else v - 1

/-- Loop `while left >= 0 && (bytes[left as usize] as char).is_whitespace() { left -= 1 }`
in `is_violation`, for a current non-negative `left`.  The argument `n`
stands for `left + 1`, so `n = 0` means the scan ran off the left edge of
the text (result `-1`).  `bytes[left as usize]` carries no upper bounds
check in the source; an out-of-range index is a panic, modelled as `none`. -/
def scanLeftAux (bytes : List Nat) : Nat → Option Int
  | 0 => some (-1)
  | n + 1 =>
    match bytes[n]? with
    | none => none
    | some b => if isWs b then scanLeftAux bytes n else some (n : Int)

/-- Left whitespace scan of `is_violation` starting from index `l`
(an `i32` in the source, so it may be negative, in which case the loop
body never runs and `l` itself is returned). -/
def scanLeftFrom (bytes : List Nat) (l : Int) : Option Int :=
  if l < 0 then some l else scanLeftAux bytes (l.toNat + 1)

/-- Loop `while right < bytes.len() && (bytes[right] as char).is_whitespace() { right += 1 }`,
with explicit fuel `bytes.length - r`; the bounds check is part of the
loop condition, so this scan is total. -/
def scanRightAux (bytes : List Nat) : Nat → Nat → Nat
  | 0, r => r
  | fuel + 1, r =>
    match bytes[r]? with
    | none => r
    | some b => if isWs b then scanRightAux bytes fuel (r + 1) else r

/-- Right whitespace scan of `is_violation` starting from index `r`. -/
def scanRight (bytes : List Nat) (r : Nat) : Nat :=
  scanRightAux bytes (bytes.length - r) r

/-- Rust `str::is_char_boundary`: `0` is always a boundary, the length is a
boundary, and an interior index is a boundary when the byte there is not a
UTF-8 continuation byte (`0x80..=0xBF`). -/
def is_char_boundary (bytes : List Nat) (i : Nat) : Bool :=
  if i = 0 then true
  else
    match bytes[i]? with
    | none => i == bytes.length
    | some b => if 128 ≤ b ∧ b < 192 then false else true

/-- Rust `self.source.get(start..end).map_or(false, |s| s.contains(','))`:
an out-of-range or non-boundary or reversed range yields `None`, read as
"no comma"; otherwise test whether the byte span `[start, end)` contains
a comma (byte `44`, which in valid UTF-8 occurs exactly where the
character `,` occurs). -/
def has_comma_in_span (bytes : List Nat) (start endPos : Nat) : Bool :=
  if start ≤ endPos ∧ is_char_boundary bytes start ∧ is_char_boundary bytes endPos then
    ((bytes.drop start).take (endPos - start)).contains 44
  else false

/-- Rust `Scanner::is_violation`.  The guards mirror the source's
short-circuit conditions: a byte is looked at through `getD` only when
the preceding conjuncts guarantee the access is in bounds (for `left`
and `o_left` the scan itself has already read that byte).  A `none`
result models the panic of the unchecked `bytes[left as usize]` index in
the left scans. -/
def is_violation (bytes : List Nat) (start endPos : Nat)
    (is_call_arg is_comp_or_assign : Bool) : Option Bool :=
  match scanLeftFrom bytes (i32sub1 (i32ofUsize start)) with
  | none => none
  | some left =>
    let right := scanRight bytes endPos
    if 0 ≤ left ∧ right < bytes.length ∧
        (bytes[left.toNat]?).getD 0 = 40 ∧ (bytes[right]?).getD 0 = 41 then
      if is_comp_or_assign then
        some (!has_comma_in_span bytes left.toNat (right + 1))
      else if is_call_arg then
        match scanLeftFrom bytes (left - 1) with
        | none => none
        | some o_left =>
          let o_right := scanRight bytes (right + 1)
          if 0 ≤ o_left ∧ o_right < bytes.length ∧
              (bytes[o_left.toNat]?).getD 0 = 40 ∧ (bytes[o_right]?).getD 0 = 41 then
            some (!has_comma_in_span bytes left.toNat (right + 1))
          else some false
      else some false
    else some false

/-- Rust `source.split_inclusive('\n')` on the byte representation: split
after every byte `10`; a trailing segment without a newline is kept; the
empty text yields no segments. -/
def splitInclusive : List Nat → List (List Nat)
  | [] => []
  | b :: rest =>
    if b = 10 then [b] :: splitInclusive rest
    else
      match splitInclusive rest with
      | [] => [[b]]
      | seg :: segs => (b :: seg) :: segs

/-- Running-offset accumulation of `Scanner::new`: one entry pushed after
each segment, each entry the offset just past that segment. -/
def offsetsAux : List (List Nat) → Nat → List Nat
  | [], _ => []
  | seg :: segs, off => (off + seg.length) :: offsetsAux segs (off + seg.length)

/-- Line-offset table of `Scanner::new`: a leading `0` for line 1 followed
by the running offsets after each inclusive line segment. -/
def mkLineOffsets (src : List Nat) : List Nat :=
  0 :: offsetsAux (splitInclusive src) 0

/-- Rust struct `Scanner`. -/
structure Scanner where
  source : List Nat
  line_offsets : List Nat
  deriving DecidableEq

/-- Rust `Scanner::new`. -/
def Scanner.new (source : List Nat) : Scanner :=
  { source := source, line_offsets := mkLineOffsets source }

/-- Rust struct `NodeCoords` (extracted from the Python node object). -/
structure NodeCoords where
  id : Nat
  lineno : Nat
  col_offset : Nat
  end_lineno : Nat
  end_col_offset : Nat
  is_call_arg : Bool
  is_comp_or_assign : Bool
  deriving DecidableEq

/-- Rust `lineno - 1` on `usize` (release semantics: `0 - 1` wraps to
`2^64 - 1`, an index far past any table). -/
def usizeSub1 (n : Nat) : Nat :=
  if n = 0 then 18446744073709551615 else n - 1

/-- Rust `Scanner::get_offset`:
`self.line_offsets.get(lineno - 1).copied().unwrap_or(0) + col`. -/
def get_offset (s : Scanner) (lineno col : Nat) : Nat :=
  (s.line_offsets[usizeSub1 lineno]?).getD 0 + col

/-- Body of the `check_nodes` loop for one node: compute the start and end
offsets of the node and test it. -/
def nodeViol (s : Scanner) (n : NodeCoords) : Option Bool :=
  is_violation s.source (get_offset s n.lineno n.col_offset)
    (get_offset s n.end_lineno n.end_col_offset) n.is_call_arg n.is_comp_or_assign

/-- Rust `Scanner::check_nodes`: collect the ids of the violating nodes in
input order; a panic while testing a node aborts the whole call (`none`). -/
def check_nodes (s : Scanner) : List NodeCoords → Option (List Nat)
  | [] => some []
  | n :: rest =>
    match nodeViol s n with
    | none => none
    | some v =>
      match check_nodes s rest with
      | none => none
      | some tail => some (if v then n.id :: tail else tail)

/-- Check that no ASCII byte is immediately followed by a UTF-8
continuation byte.  Every valid UTF-8 byte sequence satisfies this (a
continuation byte only ever follows a lead byte), so it is a faithful
hypothesis for text coming from a Rust `String`. -/
def utf8NoStrayCont : List Nat → Bool
  | a :: b :: rest =>
    (if a < 128 ∧ 128 ≤ b ∧ b < 192 then false else true) && utf8NoStrayCont (b :: rest)
  | _ => true

/-- Statement-side reading of "the byte span from `a` through `b`
inclusive contains a comma". -/
def spanContainsComma (bytes : List Nat) (a b : Nat) : Bool :=
  ((bytes.drop a).take (b + 1 - a)).contains 44

/-- Nearest-nonblank-on-the-left test used to state the no-parens claims:
the left scan found a position holding an opening parenthesis. -/
def isLParen (bytes : List Nat) : Option Int → Bool
  | none => false
  | some l => decide (0 ≤ l) && ((bytes[l.toNat]?).getD 0 == 40)

/-- Nearest-nonblank-on-the-right test used to state the no-parens claims:
position `r` is inside the text and holds a closing parenthesis. -/
def isRParen (bytes : List Nat) (r : Nat) : Bool :=
  decide (r < bytes.length) && ((bytes[r]?).getD 0 == 41)

/-- Statement-side whitespace set: the byte values the detector actually
treats as whitespace (tab, LF, VT, FF, CR, space, NEL, NBSP). -/
def wsByteSet (b : Nat) : Prop :=
  b = 9 ∨ b = 10 ∨ b = 11 ∨ b = 12 ∨ b = 13 ∨ b = 32 ∨ b = 133 ∨ b = 160

instance (b : Nat) : Decidable (wsByteSet b) := by
  unfold wsByteSet
  infer_instance

/-- Naive reference offset of the start of a 1-based line: walk the text
byte by byte and count line terminators until the requested line is
reached (`lineStart src line` is the byte count from the start of the
text to the first byte of that line). -/
def lineStart : List Nat → Nat → Nat
  | _, 0 => 0
  | _, 1 => 0
  | [], _ + 2 => 0
  | b :: rest, n + 2 => 1 + lineStart rest (if b = 10 then n + 1 else n + 2)

theorem scanLeftAux_lt (bytes : List Nat) (n : Nat) (l : Int)
    (h : scanLeftAux bytes n = some l) : l < (n : Int) := by
  induction n with
  | zero =>
    simp [scanLeftAux] at h
    omega
  | succ k ih =>
    simp only [scanLeftAux] at h
    split at h
    · exact absurd h (by simp)
    · rename_i b hb
      split at h
      · have := ih h
        push_cast
        omega
      · simp only [Option.some.injEq] at h
        push_cast
        omega

theorem scanLeftAux_some (bytes : List Nat) (n : Nat) (l : Int)
    (h : scanLeftAux bytes n = some l) (hl : 0 ≤ l) :
    ∃ b, bytes[l.toNat]? = some b ∧ isWs b = false := by
  induction n with
  | zero =>
    simp [scanLeftAux] at h
    omega
  | succ k ih =>
    simp only [scanLeftAux] at h
    split at h
    · exact absurd h (by simp)
    · rename_i b hb
      split at h
      · exact ih h
      · rename_i hw
        simp only [Option.some.injEq] at h
        refine ⟨b, ?_, by simpa using hw⟩
        have hlk : l.toNat = k := by omega
        rw [hlk]
        exact hb

theorem scanLeftAux_isSome (bytes : List Nat) (n : Nat) (h : n ≤ bytes.length) :
    ∃ l, scanLeftAux bytes n = some l := by
  induction n with
  | zero => exact ⟨-1, rfl⟩
  | succ k ih =>
    have hk : k < bytes.length := by omega
    simp only [scanLeftAux, List.getElem?_eq_getElem hk]
    by_cases hw : isWs bytes[k]
    · rw [if_pos hw]
      exact ih (by omega)
    · rw [if_neg hw]
      exact ⟨(k : Int), rfl⟩

theorem scanRightAux_ge (bytes : List Nat) (fuel : Nat) :
    ∀ r, r ≤ scanRightAux bytes fuel r := by
  induction fuel with
  | zero => intro r; simp [scanRightAux]
  | succ k ih =>
    intro r
    simp only [scanRightAux]
    split
    · exact le_refl r
    · split
      · have := ih (r + 1)
        omega
      · exact le_refl r

theorem scanRight_oob (bytes : List Nat) (r : Nat) (h : bytes.length ≤ r) :
    scanRight bytes r = r := by
  unfold scanRight
  rw [Nat.sub_eq_zero_of_le h]
  rfl

theorem scanRight_fixed_iff (bytes : List Nat) (r : Nat) (h : r < bytes.length) :
    scanRight bytes r = r ↔ isWs ((bytes[r]?).getD 0) = false := by
  unfold scanRight
  have hfuel : bytes.length - r = (bytes.length - r - 1) + 1 := by omega
  rw [hfuel]
  simp only [scanRightAux, List.getElem?_eq_getElem h, Option.getD_some]
  by_cases hw : isWs bytes[r]
  · rw [if_pos hw]
    constructor
    · intro he
      have := scanRightAux_ge bytes (bytes.length - r - 1) (r + 1)
      omega
    · intro hc
      rw [hc] at hw
      exact absurd hw (by simp)
  · rw [if_neg hw]
    simp only [Bool.not_eq_true] at hw
    simp [hw]

theorem is_char_boundary_le (bytes : List Nat) (i : Nat)
    (h : is_char_boundary bytes i = true) : i ≤ bytes.length := by
  unfold is_char_boundary at h
  by_cases h0 : i = 0
  · omega
  · rw [if_neg h0] at h
    cases hb : bytes[i]? with
    | none =>
      rw [hb] at h
      simp only [beq_iff_eq] at h
      omega
    | some b =>
      obtain ⟨hlt, _⟩ := List.getElem?_eq_some.mp hb
      omega

theorem utf8NoStrayCont_adj (bytes : List Nat) (hu : utf8NoStrayCont bytes = true) :
    ∀ i a c, bytes[i]? = some a → a < 128 → bytes[i + 1]? = some c →
      c < 128 ∨ 192 ≤ c := by
  induction bytes with
  | nil => intro i a c h _ _; simp at h
  | cons x rest ih =>
    cases rest with
    | nil =>
      intro i a c _ _ hc
      obtain ⟨hlt, _⟩ := List.getElem?_eq_some.mp hc
      simp at hlt
    | cons y rest2 =>
      simp only [utf8NoStrayCont, Bool.and_eq_true] at hu
      obtain ⟨h1, h2⟩ := hu
      intro i a c ha hlt hc
      cases i with
      | zero =>
        rw [List.getElem?_cons_zero] at ha
        rw [List.getElem?_cons_succ, List.getElem?_cons_zero] at hc
        simp only [Option.some.injEq] at ha hc
        by_cases hcond : x < 128 ∧ 128 ≤ y ∧ y < 192
        · rw [if_pos hcond] at h1
          exact absurd h1 (by simp)
        · push_neg at hcond
          omega
      | succ j =>
        rw [List.getElem?_cons_succ] at ha hc
        exact ih h2 j a c ha hlt hc

theorem has_comma_eq_span (bytes : List Nat) (l r : Nat)
    (hu : utf8NoStrayCont bytes = true)
    (hl : bytes[l]? = some 40) (hr : bytes[r]? = some 41) :
    has_comma_in_span bytes l (r + 1) = spanContainsComma bytes l r := by
  by_cases hle : l ≤ r + 1
  · have hbl : is_char_boundary bytes l = true := by
      unfold is_char_boundary
      by_cases h0 : l = 0
      · rw [if_pos h0]
      · rw [if_neg h0, hl]
        norm_num
    have hbr : is_char_boundary bytes (r + 1) = true := by
      unfold is_char_boundary
      rw [if_neg (by omega : ¬ r + 1 = 0)]
      split
      · rename_i hc
        obtain ⟨hrlt, _⟩ := List.getElem?_eq_some.mp hr
        have hnlt : ¬ r + 1 < bytes.length := by
          intro hlt
          rw [List.getElem?_eq_getElem hlt] at hc
          exact absurd hc (by simp)
        simp only [beq_iff_eq]
        omega
      · rename_i c hc
        have hadj := utf8NoStrayCont_adj bytes hu r 41 c hr (by omega) hc
        rw [if_neg (by omega)]
    unfold has_comma_in_span spanContainsComma
    rw [if_pos ⟨hle, hbl, hbr⟩]
  · unfold has_comma_in_span spanContainsComma
    rw [if_neg (by tauto)]
    have hz : r + 1 - l = 0 := by omega
    rw [hz]
    simp

theorem scanLeftFrom_byte (bytes : List Nat) (i : Int) (l : Int)
    (h : scanLeftFrom bytes i = some l) (hl : 0 ≤ l) :
    ∃ b, bytes[l.toNat]? = some b ∧ isWs b = false := by
  unfold scanLeftFrom at h
  by_cases hi : i < 0
  · rw [if_pos hi] at h
    simp only [Option.some.injEq] at h
    omega
  · rw [if_neg hi] at h
    exact scanLeftAux_some bytes (i.toNat + 1) l h hl

theorem scanLeftFrom_isSome (bytes : List Nat) (i : Int)
    (h : i < (bytes.length : Int)) : ∃ l, scanLeftFrom bytes i = some l := by
  unfold scanLeftFrom
  by_cases hi : i < 0
  · rw [if_pos hi]
    exact ⟨i, rfl⟩
  · rw [if_neg hi]
    exact scanLeftAux_isSome bytes (i.toNat + 1) (by omega)

/-- CLAIM C1 (code bug).  The specification says every whitespace scan
simply stops at the text boundary, so `check_nodes` is total.  The left
scan of `is_violation`, however, indexes `bytes[left as usize]` with only
a `left >= 0` check: for a node whose computed start offset exceeds the
text's byte length the very first loop-condition evaluation indexes out
of bounds and panics.  Concretely, on the two-byte text `"ab"` a node at
line 1, column 100 makes `check_nodes` abort (modelled as `none`) instead
of returning a list. -/
theorem check_nodes_panics_past_text :
    check_nodes (Scanner.new [97, 98]) [⟨1, 1, 100, 1, 100, false, true⟩] = none := by
  decide

/-- CLAIM C2 (counterexample).  The claim says `offset(line, col) = 0`
for every out-of-range line and every column; on the empty text the
table is `[0]`, line 3 has no entry, and column 7 yields offset 7, not 0
(the code clamps only the table contribution to 0 and still adds `col`). -/
theorem get_offset_out_of_range_ne_zero :
    ¬ get_offset (Scanner.new []) 3 7 = 0 := by
  decide

/-- CLAIM C2 (amended).  For a line with no table entry, `get_offset`
returns `0 + col = col` (only the table lookup is clamped to 0); for a
line with a table entry `v` it returns `v + col`. -/
theorem get_offset_clamps_table_only (s : Scanner) (lineno col : Nat) :
    (s.line_offsets[usizeSub1 lineno]? = none → get_offset s lineno col = col) ∧
    ∀ v : Nat, s.line_offsets[usizeSub1 lineno]? = some v →
      get_offset s lineno col = v + col := by
  constructor
  · intro h
    unfold get_offset
    rw [h]
    simp
  · intro v h
    unfold get_offset
    rw [h]
    simp

/-- CLAIM C2 (witness for the amended theorem): on the empty text, whose
table is `[0]`, line 3 is out of range and column 7 maps to offset 7. -/
theorem get_offset_clamps_table_only_witness :
    get_offset (Scanner.new []) 3 7 = 7 :=
  (get_offset_clamps_table_only (Scanner.new []) 3 7).1 (by decide)

/-- CLAIM C5 (counterexample).  The claim says a byte is skipped as
whitespace only if it is space, tab, newline or carriage return; but the
right scan steps over byte 11 (vertical tab), which is none of those. -/
theorem scan_skips_vertical_tab :
    scanRight [11] 0 = 1 ∧ ¬ (11 = 32 ∨ 11 = 9 ∨ 11 = 10 ∨ 11 = 13) := by
  decide

theorem isWs_iff_wsByteSet (b : Nat) : isWs b = true ↔ wsByteSet b := by
  unfold isWs wsByteSet
  simp
  tauto

/-- CLAIM C5 (amended).  A byte is skipped by the whitespace scans
(the same two scan loops serve the inner left/right scans and the outer
scans of the call-argument branch) if and only if it lies in the set
{9, 10, 11, 12, 13, 32, 133, 160}: tab, LF, VT, FF, CR, space, and the
two further White_Space values `(b as char).is_whitespace()` accepts in
the byte range, U+0085 and U+00A0.  Stated as: a scan starting on an
in-range byte stays put exactly when the byte is not in that set. -/
theorem scan_skips_iff_wsByteSet (bytes : List Nat) (i : Nat)
    (h : i < bytes.length) :
    (scanRight bytes i = i ↔ ¬ wsByteSet ((bytes[i]?).getD 0)) ∧
    (scanLeftFrom bytes (i : Int) = some (i : Int) ↔
      ¬ wsByteSet ((bytes[i]?).getD 0)) := by
  have hws : isWs ((bytes[i]?).getD 0) = false ↔ ¬ wsByteSet ((bytes[i]?).getD 0) := by
    rw [← isWs_iff_wsByteSet]
    simp
  constructor
  · rw [scanRight_fixed_iff bytes i h]
    exact hws
  · rw [← hws]
    unfold scanLeftFrom
    rw [if_neg (by omega : ¬ (i : Int) < 0)]
    have hti : (i : Int).toNat = i := by omega
    rw [hti]
    simp only [scanLeftAux, List.getElem?_eq_getElem h, Option.getD_some]
    by_cases hw : isWs bytes[i]
    · rw [if_pos hw]
      constructor
      · intro he
        have := scanLeftAux_lt bytes i (i : Int) he
        omega
      · intro hc
        rw [hc] at hw
        exact absurd hw (by simp)
    · rw [if_neg hw]
      simp only [Bool.not_eq_true] at hw
      simp [hw]

/-- CLAIM C5 (witness): byte 32 (space) is skipped, so the right scan
starting on it does not stay put. -/
theorem scan_skips_iff_wsByteSet_witness : scanRight [32] 0 ≠ 0 :=
  fun he =>
    (scan_skips_iff_wsByteSet [32] 0 (by decide)).1.mp he
      (by decide : wsByteSet ((([32] : List Nat)[0]?).getD 0))

theorem getElem?_of_getD (bytes : List Nat) (i v : Nat) (hlt : i < bytes.length)
    (h : (bytes[i]?).getD 0 = v) : bytes[i]? = some v := by
  rw [List.getElem?_eq_getElem hlt] at h ⊢
  simp only [Option.getD_some] at h
  rw [h]

/-- CLAIM C3.  For a `is_comp_or_assign` node whose nearest non-blank
neighbours are `(` at position `l` and `)` at position
`scanRight bytes endPos`, the node is flagged iff the byte span from the
opening through the closing paren (inclusive) contains no comma.  The
hypothesis `utf8NoStrayCont` holds for every valid UTF-8 text (every
Rust `String`). -/
theorem comp_or_assign_flag_iff (bytes : List Nat) (start endPos : Nat)
    (ica : Bool) (l : Int)
    (hu : utf8NoStrayCont bytes = true)
    (hL : scanLeftFrom bytes (i32sub1 (i32ofUsize start)) = some l)
    (hl0 : 0 ≤ l)
    (hlb : bytes[l.toNat]? = some 40)
    (hrb : bytes[scanRight bytes endPos]? = some 41) :
    is_violation bytes start endPos ica true = some true ↔
      spanContainsComma bytes l.toNat (scanRight bytes endPos) = false := by
  obtain ⟨hrlt, _⟩ := List.getElem?_eq_some.mp hrb
  simp only [is_violation, hL]
  rw [if_pos ⟨hl0, hrlt, by rw [hlb]; rfl, by rw [hrb]; rfl⟩]
  rw [if_pos trivial]
  rw [has_comma_eq_span bytes l.toNat (scanRight bytes endPos) hu hlb hrb]
  cases hsp : spanContainsComma bytes l.toNat (scanRight bytes endPos) <;> simp [hsp]

/-- CLAIM C3 (witness): text `"y = (x)\n"`, node `x` at bytes 5..6 with
`is_comp_or_assign` set; the paren span has no comma, so it is flagged. -/
theorem comp_or_assign_flag_iff_witness :
    is_violation [121, 32, 61, 32, 40, 120, 41, 10] 5 6 false true = some true :=
  (comp_or_assign_flag_iff [121, 32, 61, 32, 40, 120, 41, 10] 5 6 false 4
    (by decide) (by decide) (by decide) (by decide) (by decide)).mpr (by decide)

theorem has_comma_invalid (bytes : List Nat) (a b : Nat)
    (hinv : bytes.length < a ∨ bytes.length < b ∨
      is_char_boundary bytes a = false ∨ is_char_boundary bytes b = false) :
    has_comma_in_span bytes a b = false := by
  unfold has_comma_in_span
  rw [if_neg ?hc]
  case hc =>
    rintro ⟨h1, h2, h3⟩
    rcases hinv with h | h | h | h
    · exact absurd (is_char_boundary_le bytes a h2) (by omega)
    · exact absurd (is_char_boundary_le bytes b h3) (by omega)
    · rw [h] at h2
      exact absurd h2 (by simp)
    · rw [h] at h3
      exact absurd h3 (by simp)

/-- CLAIM C10.  The comma test is total via the optional substring
lookup: a span whose start or end exceeds the text's byte length or
misses a UTF-8 character boundary yields `false` ("no comma"), and
consequently an enclosed `is_comp_or_assign` node whose paren span is
such an invalid range is flagged exactly as if the span held no comma. -/
theorem comma_lookup_defensive :
    (∀ (bytes : List Nat) (a b : Nat),
        bytes.length < a ∨ bytes.length < b ∨
          is_char_boundary bytes a = false ∨ is_char_boundary bytes b = false →
        has_comma_in_span bytes a b = false) ∧
    (∀ (bytes : List Nat) (start endPos : Nat) (ica : Bool) (l : Int),
        scanLeftFrom bytes (i32sub1 (i32ofUsize start)) = some l → 0 ≤ l →
        bytes[l.toNat]? = some 40 →
        bytes[scanRight bytes endPos]? = some 41 →
        (bytes.length < l.toNat ∨ bytes.length < scanRight bytes endPos + 1 ∨
          is_char_boundary bytes l.toNat = false ∨
          is_char_boundary bytes (scanRight bytes endPos + 1) = false) →
        is_violation bytes start endPos ica true = some true) := by
  refine ⟨fun bytes a b h => has_comma_invalid bytes a b h, ?_⟩
  intro bytes start endPos ica l hL hl0 hlb hrb hinv
  obtain ⟨hrlt, _⟩ := List.getElem?_eq_some.mp hrb
  simp only [is_violation, hL]
  rw [if_pos ⟨hl0, hrlt, by rw [hlb]; rfl, by rw [hrb]; rfl⟩]
  rw [if_pos trivial]
  rw [has_comma_invalid bytes l.toNat (scanRight bytes endPos + 1) hinv]
  rfl

/-- CLAIM C10 (witness): a plainly out-of-range span yields no comma, and
a text ending in a stray continuation byte (`[40, 120, 41, 128]`) makes
the paren span `0..4` invalid at its right boundary, so the enclosed
node is flagged. -/
theorem comma_lookup_defensive_witness :
    has_comma_in_span [40] 5 6 = false ∧
    is_violation [40, 120, 41, 128] 1 2 false true = some true :=
  ⟨comma_lookup_defensive.1 [40] 5 6 (by decide),
    comma_lookup_defensive.2 [40, 120, 41, 128] 1 2 false 0
      (by decide) (by decide) (by decide) (by decide) (by decide)⟩

/-- CLAIM C4.  For a call-argument node (with `is_comp_or_assign` unset)
enclosed by `(` at position `l` and `)` at position
`scanRight bytes endPos`, the node is flagged iff a second paren pair
lies immediately outside (only whitespace between) and the inner paren
span contains no comma; in particular a node with a single enclosing
pair and no matching outer pair is never flagged in this branch. -/
theorem call_arg_flag_iff (bytes : List Nat) (start endPos : Nat) (l : Int)
    (hu : utf8NoStrayCont bytes = true)
    (hL : scanLeftFrom bytes (i32sub1 (i32ofUsize start)) = some l)
    (hl0 : 0 ≤ l)
    (hlb : bytes[l.toNat]? = some 40)
    (hrb : bytes[scanRight bytes endPos]? = some 41) :
    is_violation bytes start endPos true false = some true ↔
      ((∃ ol : Int, scanLeftFrom bytes (l - 1) = some ol ∧ 0 ≤ ol ∧
          bytes[ol.toNat]? = some 40) ∧
        bytes[scanRight bytes (scanRight bytes endPos + 1)]? = some 41 ∧
        spanContainsComma bytes l.toNat (scanRight bytes endPos) = false) := by
  obtain ⟨hrlt, _⟩ := List.getElem?_eq_some.mp hrb
  obtain ⟨hllt, _⟩ := List.getElem?_eq_some.mp hlb
  obtain ⟨ol, hOL⟩ := scanLeftFrom_isSome bytes (l - 1) (by omega)
  simp only [is_violation, hL, hOL]
  rw [if_pos ⟨hl0, hrlt, by rw [hlb]; rfl, by rw [hrb]; rfl⟩]
  by_cases hog : 0 ≤ ol ∧ scanRight bytes (scanRight bytes endPos + 1) < bytes.length ∧
      (bytes[ol.toNat]?).getD 0 = 40 ∧
      (bytes[scanRight bytes (scanRight bytes endPos + 1)]?).getD 0 = 41
  · rw [if_pos hog]
    obtain ⟨g1, g2, g3, g4⟩ := hog
    constructor
    · intro hsome
      have hspan : spanContainsComma bytes l.toNat (scanRight bytes endPos) = false := by
        rw [has_comma_eq_span bytes l.toNat (scanRight bytes endPos) hu hlb hrb] at hsome
        cases hsp : spanContainsComma bytes l.toNat (scanRight bytes endPos)
        · rfl
        · rw [hsp] at hsome
          exact absurd hsome (by simp)
      refine ⟨⟨ol, rfl, g1, ?_⟩, ?_, hspan⟩
      · obtain ⟨b, hbeq, _⟩ := scanLeftFrom_byte bytes (l - 1) ol hOL g1
        rw [hbeq] at g3
        simp only [Option.getD_some] at g3
        rw [hbeq, g3]
      · exact getElem?_of_getD bytes (scanRight bytes (scanRight bytes endPos + 1)) 41 g2 g4
    · rintro ⟨_, _, hspan⟩
      rw [has_comma_eq_span bytes l.toNat (scanRight bytes endPos) hu hlb hrb, hspan]
      rfl
  · rw [if_neg hog]
    constructor
    · intro h
      exact absurd h (by simp)
    · rintro ⟨⟨ol', hOL', hol0, holb⟩, horb, hspan⟩
      exfalso
      apply hog
      simp only [Option.some.injEq] at hOL'
      subst hOL'
      obtain ⟨horlt, _⟩ := List.getElem?_eq_some.mp horb
      exact ⟨hol0, horlt, by rw [holb]; rfl, by rw [horb]; rfl⟩

/-- CLAIM C4 (witness): in `"f((x))"` the call-argument node `x` at
bytes 3..4 sits in a doubled paren pair with no comma and is flagged;
the flag follows from the double pair, the outer `)`, and the comma-free
span. -/
theorem call_arg_flag_iff_witness :
    is_violation [102, 40, 40, 120, 41, 41] 3 4 true false = some true :=
  (call_arg_flag_iff [102, 40, 40, 120, 41, 41] 3 4 2
    (by decide) (by decide) (by decide) (by decide) (by decide)).mpr
    ⟨⟨1, by decide, by decide, by decide⟩, by decide, by decide⟩

theorem check_nodes_some_eq (s : Scanner) (nodes : List NodeCoords) (out : List Nat)
    (h : check_nodes s nodes = some out) :
    out = (nodes.filter fun m => nodeViol s m == some true).map NodeCoords.id := by
  induction nodes generalizing out with
  | nil =>
    simp only [check_nodes, Option.some.injEq] at h
    subst h
    simp
  | cons n rest ih =>
    simp only [check_nodes] at h
    split at h
    · exact absurd h (by simp)
    · rename_i v hv
      split at h
      · exact absurd h (by simp)
      · rename_i tail htail
        simp only [Option.some.injEq] at h
        subst h
        rw [List.filter_cons]
        cases v with
        | false => simp [hv, ih tail htail]
        | true => simp [hv, ih tail htail]

theorem is_violation_no_parens (bytes : List Nat) (st en : Nat) (a c : Bool)
    (hfail : isLParen bytes (scanLeftFrom bytes (i32sub1 (i32ofUsize st))) = false ∨
      isRParen bytes (scanRight bytes en) = false) :
    is_violation bytes st en a c ≠ some true := by
  cases hL : scanLeftFrom bytes (i32sub1 (i32ofUsize st)) with
  | none => simp [is_violation, hL]
  | some l =>
    simp only [is_violation, hL]
    have hcond : ¬ (0 ≤ l ∧ scanRight bytes en < bytes.length ∧
        (bytes[l.toNat]?).getD 0 = 40 ∧ (bytes[scanRight bytes en]?).getD 0 = 41) := by
      rintro ⟨g1, g2, g3, g4⟩
      rcases hfail with hf | hf
      · rw [hL] at hf
        simp [isLParen, g1, g3] at hf
      · rw [List.getElem?_eq_getElem g2] at g4
        simp only [Option.getD_some] at g4
        simp [isRParen, g2, g4] at hf
    rw [if_neg hcond]
    simp

theorem is_violation_neither_false (bytes : List Nat) (st en : Nat) :
    is_violation bytes st en false false ≠ some true := by
  cases hL : scanLeftFrom bytes (i32sub1 (i32ofUsize st)) with
  | none => simp [is_violation, hL]
  | some l =>
    simp only [is_violation, hL]
    split <;> simp

/-- CLAIM C9.  A normally returned result of `check_nodes` is exactly the
ids of the violating nodes, in input order: the filter keeps the
violating nodes in their relative order and nothing else is emitted. -/
theorem check_nodes_order (s : Scanner) (nodes : List NodeCoords) (out : List Nat)
    (h : check_nodes s nodes = some out) :
    out = (nodes.filter fun m => nodeViol s m == some true).map NodeCoords.id :=
  check_nodes_some_eq s nodes out h

/-- CLAIM C9 (witness): two violating nodes with ids 5 and 3, in that
input order, on the text `"y = (x)\n"`; the output is `[5, 3]`. -/
theorem check_nodes_order_witness :
    [5, 3] =
      (([⟨5, 1, 5, 1, 6, false, true⟩, ⟨3, 1, 5, 1, 6, false, true⟩] :
          List NodeCoords).filter
        (fun m => nodeViol (Scanner.new [121, 32, 61, 32, 40, 120, 41, 10]) m ==
          some true)).map NodeCoords.id :=
  check_nodes_order (Scanner.new [121, 32, 61, 32, 40, 120, 41, 10])
    [⟨5, 1, 5, 1, 6, false, true⟩, ⟨3, 1, 5, 1, 6, false, true⟩] [5, 3] (by decide)

/-- CLAIM C7.  A node whose nearest non-blank left neighbour is not `(`
or whose nearest non-blank right neighbour is not `)` (including the
boundary cases where no such byte exists) is never reported: its id is
absent from any normally returned result of `check_nodes` (assuming the
node's id is not shared with another node). -/
theorem no_parens_never_flagged (s : Scanner) (nodes : List NodeCoords)
    (n : NodeCoords) (out : List Nat)
    (hmem : n ∈ nodes)
    (huniq : ∀ m ∈ nodes, m.id = n.id → m = n)
    (hfail : isLParen s.source (scanLeftFrom s.source
        (i32sub1 (i32ofUsize (get_offset s n.lineno n.col_offset)))) = false ∨
      isRParen s.source (scanRight s.source
        (get_offset s n.end_lineno n.end_col_offset)) = false)
    (hout : check_nodes s nodes = some out) :
    n.id ∉ out := by
  intro hid
  rw [check_nodes_some_eq s nodes out hout] at hid
  obtain ⟨m, hmf, hmid⟩ := List.mem_map.mp hid
  obtain ⟨hmn, hmv⟩ := List.mem_filter.mp hmf
  have hmeq : m = n := huniq m hmn hmid
  subst hmeq
  have hv : nodeViol s m = some true := by simpa using hmv
  unfold nodeViol at hv
  exact is_violation_no_parens s.source (get_offset s m.lineno m.col_offset)
    (get_offset s m.end_lineno m.end_col_offset) m.is_call_arg m.is_comp_or_assign
    hfail hv

/-- CLAIM C7 (witness): on `"y = (x)\n"`, the node for `y` (id 7, bytes
0..1) has no `(` to its left, so only the paren-enclosed node (id 5) is
reported and 7 is absent. -/
theorem no_parens_never_flagged_witness : (7 : Nat) ∉ [5] :=
  no_parens_never_flagged (Scanner.new [121, 32, 61, 32, 40, 120, 41, 10])
    [⟨7, 1, 0, 1, 1, false, true⟩, ⟨5, 1, 5, 1, 6, false, true⟩]
    ⟨7, 1, 0, 1, 1, false, true⟩ [5] (by decide) (by decide)
    (Or.inl (by decide)) (by decide)

/-- CLAIM C8.  A node with both classifiers unset is never reported, even
when it is enclosed in parentheses: its id is absent from any normally
returned result of `check_nodes` (assuming its id is not shared). -/
theorem neither_classifier_never_flagged (s : Scanner) (nodes : List NodeCoords)
    (n : NodeCoords) (out : List Nat)
    (hmem : n ∈ nodes)
    (huniq : ∀ m ∈ nodes, m.id = n.id → m = n)
    (hca : n.is_call_arg = false)
    (hcc : n.is_comp_or_assign = false)
    (hout : check_nodes s nodes = some out) :
    n.id ∉ out := by
  intro hid
  rw [check_nodes_some_eq s nodes out hout] at hid
  obtain ⟨m, hmf, hmid⟩ := List.mem_map.mp hid
  obtain ⟨hmn, hmv⟩ := List.mem_filter.mp hmf
  have hmeq : m = n := huniq m hmn hmid
  subst hmeq
  have hv : nodeViol s m = some true := by simpa using hmv
  unfold nodeViol at hv
  rw [hca, hcc] at hv
  exact is_violation_neither_false s.source (get_offset s m.lineno m.col_offset)
    (get_offset s m.end_lineno m.end_col_offset) hv

/-- CLAIM C8 (witness): on `"y = (x)\n"`, a node for `x` with both
classifiers unset (id 9) is enclosed in parens yet not reported. -/
theorem neither_classifier_never_flagged_witness : (9 : Nat) ∉ ([] : List Nat) :=
  neither_classifier_never_flagged (Scanner.new [121, 32, 61, 32, 40, 120, 41, 10])
    [⟨9, 1, 5, 1, 6, false, false⟩] ⟨9, 1, 5, 1, 6, false, false⟩ []
    (by decide) (by decide) (by decide) (by decide) (by decide)

theorem offsetsAux_shift (segs : List (List Nat)) :
    ∀ a b : Nat, offsetsAux segs (a + b) = (offsetsAux segs b).map (· + a) := by
  induction segs with
  | nil => intro a b; simp [offsetsAux]
  | cons seg rest ih =>
    intro a b
    simp only [offsetsAux, List.map_cons]
    rw [show a + b + seg.length = a + (b + seg.length) by omega]
    rw [ih a (b + seg.length)]
    rw [show a + (b + seg.length) = b + seg.length + a by omega]

theorem splitInclusive_eq_nil (src : List Nat) (h : splitInclusive src = []) :
    src = [] := by
  cases src with
  | nil => rfl
  | cons b rest =>
    exfalso
    simp only [splitInclusive] at h
    split at h
    · exact absurd h (by simp)
    · split at h <;> exact absurd h (by simp)

theorem mkLineOffsets_cons_nl (rest : List Nat) :
    mkLineOffsets (10 :: rest) = 0 :: (mkLineOffsets rest).map (· + 1) := by
  unfold mkLineOffsets
  simp only [splitInclusive, if_pos rfl, offsetsAux, List.map_cons, List.length_cons,
    List.length_nil]
  have hshift := offsetsAux_shift (splitInclusive rest) 1 0
  simp only [Nat.add_zero] at hshift
  rw [show (0 : Nat) + 1 = 1 by rfl, hshift]

theorem mkLineOffsets_cons (b : Nat) (rest : List Nat) (hb : ¬ b = 10)
    (seg : List Nat) (segs : List (List Nat))
    (hsr : splitInclusive rest = seg :: segs) :
    mkLineOffsets (b :: rest) = 0 :: (mkLineOffsets rest).tail.map (· + 1) := by
  unfold mkLineOffsets
  simp only [splitInclusive, if_neg hb, hsr, List.tail_cons, offsetsAux,
    List.map_cons, List.length_cons]
  have hshift := offsetsAux_shift segs 1 (0 + seg.length)
  rw [show (0 : Nat) + (seg.length + 1) = 1 + (0 + seg.length) by omega]
  rw [hshift]
  rw [show (1 : Nat) + (0 + seg.length) = 0 + seg.length + 1 by omega]

theorem mkLineOffsets_getElem (src : List Nat) :
    ∀ i, i < (mkLineOffsets src).length →
      (mkLineOffsets src)[i]? = some (lineStart src (i + 1)) := by
  induction src with
  | nil =>
    intro i hi
    have h1 : (mkLineOffsets []).length = 1 := by rfl
    rw [h1] at hi
    have h0 : i = 0 := by omega
    subst h0
    rfl
  | cons b rest ih =>
    intro i hi
    by_cases hb : b = 10
    · subst hb
      rw [mkLineOffsets_cons_nl] at hi ⊢
      cases i with
      | zero => simp [lineStart]
      | succ j =>
        rw [List.getElem?_cons_succ, List.getElem?_map]
        have hj : j < (mkLineOffsets rest).length := by
          simp only [List.length_cons, List.length_map] at hi
          omega
        rw [ih j hj]
        simp only [Option.map_some']
        have hls : lineStart (10 :: rest) (j + 2) = 1 + lineStart rest (j + 1) := by
          simp [lineStart]
        rw [hls, Nat.add_comm]
    · cases hsr : splitInclusive rest with
      | nil =>
        have hre : rest = [] := splitInclusive_eq_nil rest hsr
        subst hre
        have htab : mkLineOffsets [b] = [0, 1] := by
          unfold mkLineOffsets splitInclusive
          rw [if_neg hb]
          rfl
        rw [htab] at hi ⊢
        simp only [List.length_cons, List.length_nil] at hi
        match i, hi with
        | 0, _ => simp [lineStart]
        | 1, _ =>
          have hls : lineStart [b] 2 = 1 := by
            simp [lineStart, hb]
          simp [hls]
      | cons seg segs =>
        rw [mkLineOffsets_cons b rest hb seg segs hsr] at hi ⊢
        cases i with
        | zero => simp [lineStart]
        | succ j =>
          rw [List.getElem?_cons_succ, List.getElem?_map]
          have htail : (mkLineOffsets rest).tail[j]? = (mkLineOffsets rest)[j + 1]? := by
            unfold mkLineOffsets
            rw [List.tail_cons, List.getElem?_cons_succ]
          rw [htail]
          have hj : j + 1 < (mkLineOffsets rest).length := by
            simp only [List.length_cons, List.length_map, List.length_tail] at hi
            have hpos : 0 < (mkLineOffsets rest).length := by
              unfold mkLineOffsets
              simp
            omega
          rw [ih (j + 1) hj]
          simp only [Option.map_some']
          have hls : lineStart (b :: rest) (j + 2) = 1 + lineStart rest (j + 2) := by
            simp [lineStart, hb]
          rw [hls, Nat.add_comm]

/-- CLAIM C6.  For every text and every (line, column) position whose
line has a table entry, `get_offset` equals the naive reference offset:
the byte count from the start of the text to that row plus the column.
This covers empty lines, missing trailing newline and CRLF terminators,
since `lineStart` walks the raw bytes and counts `\n` bytes only. -/
theorem offset_correct (src : List Nat) (lineno col : Nat)
    (h1 : 1 ≤ lineno) (h2 : lineno - 1 < (mkLineOffsets src).length) :
    get_offset (Scanner.new src) lineno col = lineStart src lineno + col := by
  unfold get_offset Scanner.new
  simp only
  have hus : usizeSub1 lineno = lineno - 1 := by
    unfold usizeSub1
    rw [if_neg (by omega)]
  rw [hus]
  rw [mkLineOffsets_getElem src (lineno - 1) h2]
  simp only [Option.getD_some]
  rw [show lineno - 1 + 1 = lineno by omega]

/-- CLAIM C6 (witness): on the CRLF text `"a\r\nb"`, line 2 column 1
maps to byte offset 4, matching the naive byte count. -/
theorem offset_correct_witness :
    get_offset (Scanner.new [97, 13, 10, 98]) 2 1 =
      lineStart [97, 13, 10, 98] 2 + 1 :=
  offset_correct [97, 13, 10, 98] 2 1 (by decide) (by decide)
